import Mathlib

/-!
Shallow embedding of `src/app/doc/doc_constructor_agent.py`.

Strings are modelled by Lean `String` (a list of characters); Python string
primitives (`strip`, `splitlines`, `split`, `startswith`, …) are re-implemented
below with the semantics of CPython on the character classes that occur in this
program (`splitlines` is modelled on the terminators `\n`, `\r`, `\r\n`).
The external python-docx `Document` is modelled as a list of `Block`s, and the
flow-diagram agent as a function returning `Except` (an exception) or an
optional image.
-/

set_option maxRecDepth 8000

/-- Python `str.strip()` whitespace class (ASCII). -/
def isPyWs (c : Char) : Bool :=
  c = ' ' || c = '\t' || c = '\n' || c = '\r' || c = '\x0b' || c = '\x0c'

/-- Drop leading characters satisfying `p`. -/
def lstripL (p : Char → Bool) (cs : List Char) : List Char := cs.dropWhile p

/-- Drop trailing characters satisfying `p`. -/
def rstripL (p : Char → Bool) (cs : List Char) : List Char :=
  (cs.reverse.dropWhile p).reverse

/-- Drop leading and trailing characters satisfying `p`. -/
def stripL (p : Char → Bool) (cs : List Char) : List Char := rstripL p (lstripL p cs)

/-- Python `s.strip(<class p>)`. -/
def stripWithPred (p : Char → Bool) (s : String) : String := String.mk (stripL p s.toList)

/-- Python `s.strip()`. -/
def pyStrip (s : String) : String := stripWithPred isPyWs s

/-- Strip only on the left (used to analyse `pyStrip`). -/
def lstripStr (s : String) : String := String.mk (lstripL isPyWs s.toList)

/-- Strip only on the right (used to analyse `pyStrip`). -/
def rstripStr (s : String) : String := String.mk (rstripL isPyWs s.toList)

/-- Python `s.strip('|')`. -/
def stripPipes (s : String) : String := stripWithPred (fun c => c = '|') s

/-- The backtick character. -/
def backtick : Char := Char.ofNat 96

/-- Python `s.strip("` ".replace ...)` : strip backticks and spaces (set used by
`extract_arrow_flow`). -/
def stripBtSpace (s : String) : String :=
  stripWithPred (fun c => c = backtick || c = ' ') s

/-- Python `sep.(single char) split`: `s.split(c)`, auxiliary on characters. -/
def splitOnCharAux (c : Char) : List Char → List Char → List String
  | [], acc => [String.mk acc.reverse]
  | x :: rest, acc =>
    if x = c then String.mk acc.reverse :: splitOnCharAux c rest []
    else splitOnCharAux c rest (x :: acc)

/-- Python `s.split(c)` for a one-character separator. -/
def splitOnChar (c : Char) (s : String) : List String := splitOnCharAux c s.toList []

/-- Python `str.splitlines`, auxiliary on characters (terminators `\r\n`, `\n`, `\r`). -/
def pySplitlinesAux : List Char → List Char → List String
  | [], acc => if acc.isEmpty then [] else [String.mk acc.reverse]
  | '\r' :: '\n' :: rest, acc => String.mk acc.reverse :: pySplitlinesAux rest []
  | '\n' :: rest, acc => String.mk acc.reverse :: pySplitlinesAux rest []
  | '\r' :: rest, acc => String.mk acc.reverse :: pySplitlinesAux rest []
  | x :: rest, acc => pySplitlinesAux rest (x :: acc)

/-- Python `str.splitlines`. -/
def pySplitlines (s : String) : List String := pySplitlinesAux s.toList []

mutual

/-- Python `re.split(r'  +', s)`: normal scanning mode (fuel-indexed). -/
def splitWs2Main : Nat → List Char → List Char → List String
  | 0, _, acc => [String.mk acc.reverse]
  | _ + 1, [], acc => [String.mk acc.reverse]
  | fuel + 1, ' ' :: ' ' :: rest, acc => String.mk acc.reverse :: splitWs2Skip fuel rest
  | fuel + 1, x :: rest, acc => splitWs2Main fuel rest (x :: acc)

/-- Python `re.split(r'  +', s)`: mode skipping the rest of a space run (fuel-indexed). -/
def splitWs2Skip : Nat → List Char → List String
  | 0, _ => [""]
  | _ + 1, [] => [""]
  | fuel + 1, ' ' :: rest => splitWs2Skip fuel rest
  | fuel + 1, x :: rest => splitWs2Main fuel rest [x]

end

/-- Python `re.split(r'  +', s)`: split on maximal runs of two or more spaces. -/
def splitWs2 (s : String) : List String := splitWs2Main (s.toList.length + 1) s.toList []

/-- Python `"\n".join ls`. -/
def joinNL : List String → String
  | [] => ""
  | [l] => l
  | l :: l2 :: rest => l ++ "\n" ++ joinNL (l2 :: rest)

/-- Does the string contain the character `c`? (Python `c in s`.) -/
def containsChar (c : Char) (s : String) : Bool := s.toList.any (fun x => decide (x = c))

/-- Python `'|' in s`. -/
def containsPipe (s : String) : Bool := containsChar '|' s

/-- Substring search for `"->"` on characters. -/
def hasArrowL : List Char → Bool
  | c :: c2 :: rest => if c = '-' && c2 = '>' then true else hasArrowL (c2 :: rest)
  | _ => false

/-- Python `"->" in s`. -/
def hasArrow (s : String) : Bool := hasArrowL s.toList

/-- Boolean list-prefix test. -/
def isPrefixB : List Char → List Char → Bool
  | [], _ => true
  | _ :: _, [] => false
  | p :: ps, c :: cs => p = c && isPrefixB ps cs

/-- Python `s.startswith(pre)`. -/
def strStartsWith (s pre : String) : Bool := isPrefixB pre.toList s.toList

/-- Python `s.endswith(suf)`. -/
def strEndsWith (s suf : String) : Bool := isPrefixB suf.toList.reverse s.toList.reverse

/-- ASCII lower-casing of a character (Python `str.lower` on ASCII input). -/
def lowerChar (c : Char) : Char :=
  if 'A' ≤ c ∧ c ≤ 'Z' then Char.ofNat (c.toNat + 32) else c

/-- Python `s.lower()` (ASCII). -/
def strToLower (s : String) : String := String.mk (s.toList.map lowerChar)

/-- The stripped, non-blank lines used by `parse_markdown_table`,
`parse_github_style_table` and `parse_any_delim_table`:
`[l.strip() for l in table_md.strip().splitlines() if l.strip()]`. -/
def stripLines (v : String) : List String :=
  ((pySplitlines (pyStrip v)).map pyStrip).filter (fun l => l ≠ "")

/-- `re.match(r'^[-:\s|]+$', l)`: the classic-markdown divider test of
`parse_markdown_table` (line 71). -/
def mdDivider (l : String) : Bool :=
  !l.toList.isEmpty && l.toList.all (fun c => c = '-' || c = ':' || c = '|' || isPyWs c)

/-- Segment form `-+\s*` (before the first `|` of a github divider). -/
def matchDashWs (s : String) : Bool :=
  match s.toList with
  | [] => false
  | c :: _ => c = '-' && (s.toList.dropWhile (fun x => x = '-')).all isPyWs

/-- Segment form `\s*-+\s*` (between two `|` of a github divider). -/
def matchWsDashWs (s : String) : Bool :=
  match s.toList.dropWhile isPyWs with
  | [] => false
  | c :: _ =>
    c = '-' && ((s.toList.dropWhile isPyWs).dropWhile (fun x => x = '-')).all isPyWs

/-- Segment form `\s*-+` (after the last `|` of a github divider). -/
def matchWsDash (s : String) : Bool :=
  let t := s.toList.dropWhile isPyWs
  !t.isEmpty && t.all (fun x => x = '-')

/-- The segments of a github divider after the first: all middles are
`\s*-+\s*`, the last is `\s*-+`. -/
def ghSegs : List String → Bool
  | [] => false
  | [p] => matchWsDash p
  | p :: q :: ps => matchWsDashWs p && ghSegs (q :: ps)

/-- `re.match(r'^-+(\s*\|\s*-+)+$', l)`: the github-style divider test of
`parse_github_style_table` (line 82), decomposed at the pipe characters. -/
def isGithubDivider (l : String) : Bool :=
  match splitOnChar '|' l with
  | p0 :: p1 :: ps => matchDashWs p0 && ghSegs (p1 :: ps)
  | _ => false

/-- One row of `parse_markdown_table`:
`[cell.strip() for cell in l.strip('|').split('|')]`. -/
def mdRow (l : String) : List String := (splitOnChar '|' (stripPipes l)).map pyStrip

/-- The final check shared by all interpreters:
`if all(len(r) == len(colnames) for r in data_rows): return colnames, data_rows`
`return None, None`. -/
def lenGuard (cols : List String) (rows : List (List String)) :
    Option (List String × List (List String)) :=
  if rows.all (fun r => decide (r.length = cols.length)) then some (cols, rows) else none

/-- The data lines `parse_markdown_table` uses after deleting the divider row. -/
def mdDataLines (v : String) : List String :=
  match stripLines v with
  | _ :: l1 :: rest => if mdDivider l1 then rest else l1 :: rest
  | _ => []

/-- `parse_markdown_table` (lines 62-76). -/
def parse_markdown_table (v : String) : Option (List String × List (List String)) :=
  match stripLines v with
  | l0 :: l1 :: rest =>
    if strStartsWith l0 "|" && strEndsWith l0 "|" then
      lenGuard (mdRow l0) ((if mdDivider l1 then rest else l1 :: rest).map mdRow)
    else none
  | _ => none

/-- `parse_github_style_table` (lines 78-88). -/
def parse_github_style_table (v : String) : Option (List String × List (List String)) :=
  match stripLines v with
  | l0 :: l1 :: rest =>
    if isGithubDivider l1 then
      lenGuard ((splitOnChar '|' l0).map pyStrip)
        ((rest.filter (fun l => containsPipe l)).map (fun l => (splitOnChar '|' l).map pyStrip))
    else none
  | _ => none

/-- The line selection of `parse_simple_pipe_table` (line 95):
`[l.strip() for l in table_md.strip().splitlines() if '|' in l and not re.match(divider, l)]`. -/
def simplePipeLines (v : String) : List String :=
  ((pySplitlines (pyStrip v)).filter (fun l => containsPipe l && !isGithubDivider l)).map pyStrip

/-- `parse_simple_pipe_table` (lines 90-103). -/
def parse_simple_pipe_table (v : String) : Option (List String × List (List String)) :=
  match simplePipeLines v with
  | l0 :: l1 :: rest =>
    lenGuard ((splitOnChar '|' l0).map pyStrip)
      ((l1 :: rest).map (fun l => (splitOnChar '|' l).map pyStrip))
  | _ => none

/-- One delimiter attempt of `parse_any_delim_table`: split every line, accept
if every row has the same cell count as the first row. -/
def anyDelimTry (ls : List String) (split : String → List String) :
    Option (List String × List (List String)) :=
  match ls.map split with
  | r0 :: rs => lenGuard r0 rs
  | [] => none

/-- `parse_any_delim_table` (lines 105-123): try `|`, tab, then 2+-space runs.
Note this interpreter does not strip the cells. -/
def parse_any_delim_table (v : String) : Option (List String × List (List String)) :=
  match stripLines v with
  | l0 :: l1 :: rest =>
    match anyDelimTry (l0 :: l1 :: rest) (splitOnChar '|') with
    | some t => some t
    | none =>
      match anyDelimTry (l0 :: l1 :: rest) (splitOnChar '\t') with
      | some t => some t
      | none => anyDelimTry (l0 :: l1 :: rest) splitWs2
  | _ => none

/-- Line transformation done by `extract_arrow_flow` on each line:
`line.strip("` ").strip()`. -/
def cleanFlow (l : String) : String := pyStrip (stripBtSpace l)

/-- The noise prefixes skipped by `extract_arrow_flow`. -/
def flowNoisePrefixes : List String := ["diagram", "flow", "legend", "#"]

/-- Does a line qualify as the arrow-flow line (line 130)? -/
def flowQualifies (l : String) : Bool :=
  hasArrow (cleanFlow l) &&
    !(flowNoisePrefixes.any (fun p => strStartsWith (strToLower (cleanFlow l)) p))

/-- `extract_arrow_flow` (lines 125-134). -/
def extract_arrow_flow (text : String) : String :=
  if text = "" then ""
  else
    match (pySplitlines text).find? flowQualifies with
    | some l => cleanFlow l
    | none => if hasArrow text then pyStrip text else ""

/-- Tag of a chunk produced by `find_all_table_like_chunks`. -/
inductive ChunkTag where
  | text : ChunkTag
  | table : ChunkTag
deriving DecidableEq

/-- A line that continues a table block (line 51): contains a pipe and is non-blank. -/
def isTableLine (l : String) : Bool := containsPipe l && !(pyStrip l == "")

/-- Does the next line contain a pipe (the lookahead `lines[i+1].count('|') >= 1`)? -/
def headHasPipe : List String → Bool
  | r :: _ => containsPipe r
  | [] => false

/-- The table-start condition of line 47. -/
def startTable (l : String) (rest : List String) : Bool :=
  containsPipe l && !(pyStrip l == "") && headHasPipe rest

/-- `flush` (lines 39-42): join the buffer, strip it, and emit it if non-empty. -/
def flushChunk (t : ChunkTag) (ls : List String) : List (ChunkTag × String) :=
  if pyStrip (joinNL ls) = "" then [] else [(t, pyStrip (joinNL ls))]

/-- The chunking loop of `find_all_table_like_chunks` (lines 44-59), fuel-indexed. -/
def chunksFuel : Nat → List String → List (ChunkTag × String)
  | 0, _ => []
  | _ + 1, [] => []
  | fuel + 1, l :: rest =>
    if startTable l rest then
      flushChunk ChunkTag.table (l :: rest.takeWhile isTableLine) ++
        chunksFuel fuel (rest.dropWhile isTableLine)
    else
      (if pyStrip l = "" then [] else [(ChunkTag.text, pyStrip l)]) ++ chunksFuel fuel rest

/-- The chunking loop applied to a list of lines. -/
def chunksOfLines (ls : List String) : List (ChunkTag × String) := chunksFuel ls.length ls

/-- `find_all_table_like_chunks` (lines 27-60). -/
def find_all_table_like_chunks (text : String) : List (ChunkTag × String) :=
  if pyStrip text = "" then [] else chunksOfLines (pySplitlines text)

/-- A rendered block of the output document (python-docx calls made by the code). -/
inductive Block where
  | heading : String → Nat → Block
  | para : String → Block
  | table : List String → List (List String) → Block
  | picture : Block
deriving DecidableEq

/-- A section entry of the `sections` argument (`{"title": ...}`). -/
structure SectionSpec where
  title : String

/-- A content entry of the `content` argument (`{"section_name": ..., "content": ...}`). -/
structure ContentEntry where
  section_name : String
  content : String

/-- `find_section_content` (lines 21-25). -/
def find_section_content (cs : List ContentEntry) (title : String) : Option String :=
  match cs with
  | [] => none
  | c :: rest =>
    if pyStrip (strToLower c.section_name) = pyStrip (strToLower title) then some c.content
    else find_section_content rest title

/-- Python truthiness of the ladder state `colnames and rows`. -/
def tableOk : Option (List String × List (List String)) → Bool
  | some (cols, rows) => !cols.isEmpty && !rows.isEmpty
  | none => false

/-- The interpreter ladder from `parse_github_style_table` down (lines 176-180). -/
def ladderTail (v : String) : Option (List String × List (List String)) :=
  let r2 := parse_github_style_table v
  if tableOk r2 then r2
  else
    let r3 := parse_simple_pipe_table v
    if tableOk r3 then r3
    else
      let r4 := parse_any_delim_table v
      if tableOk r4 then r4 else none

/-- The full interpreter ladder of `build_document` (lines 174-180): the result
that is rendered as a table, if any. -/
def interpretTableChunk (v : String) : Option (List String × List (List String)) :=
  let r1 := parse_markdown_table v
  if tableOk r1 then r1 else ladderTail v

/-- Rendering of one table chunk (lines 181-184). -/
def renderTableChunk (v : String) : Block :=
  match interpretTableChunk v with
  | some (cols, rows) => Block.table cols rows
  | none => Block.para v

/-- Rendering of one chunk (lines 170-184). -/
def renderChunk : ChunkTag × String → Block
  | (ChunkTag.text, v) => Block.para v
  | (ChunkTag.table, v) => renderTableChunk v

/-- The universal text+table rendering of a section body (lines 168-184). -/
def renderChunks (text : String) : List Block :=
  (find_all_table_like_chunks text).map renderChunk

/-- The section heading `f"{i+1}. {title}"` (line 144). -/
def sectionHeader (i : Nat) (title : String) : String := Nat.repr (i + 1) ++ ". " ++ title

/-- The external flow-diagram agent: `run` may raise (`Except.error`) or return
an image (`some`) or nothing (`none`). -/
abbrev FlowAgent := String → Except String (Option Unit)

/-- The diagram-obtaining logic of lines 151-161: the `try`/`except` around
`extract_arrow_flow` and `flow_diagram_agent.run`, with exceptions mapped to
"no image". -/
def runDiagram (agent : Option FlowAgent) (secContent : Option String) : Option Unit :=
  match agent, secContent with
  | some a, some sc =>
    if sc ≠ "" then
      if extract_arrow_flow sc ≠ "" then
        match a (extract_arrow_flow sc) with
        | Except.ok img => img
        | Except.error _ => none
      else none
    else none
  | _, _ => none

/-- Processing of a single section of `build_document` (lines 142-184). -/
def buildSection (content : List ContentEntry) (agent : Option FlowAgent) (i : Nat)
    (sec : SectionSpec) : List Block :=
  let hd := Block.heading (sectionHeader i sec.title) 1
  let secContent := find_section_content content sec.title
  if strToLower (pyStrip sec.title) = "flow diagram" then
    match runDiagram agent secContent with
    | some _ => hd :: Block.picture :: renderChunks (secContent.getD "")
    | none => [hd, Block.para "[Flow diagram not available]"]
  else
    hd :: renderChunks (secContent.getD "")

/-- The `for i, section in enumerate(sections)` loop of `build_document`. -/
def buildSections (content : List ContentEntry) (agent : Option FlowAgent) :
    Nat → List SectionSpec → List Block
  | _, [] => []
  | i, s :: rest => buildSection content agent i s ++ buildSections content agent (i + 1) rest

/-- `build_document` (lines 136-187). -/
def build_document (content : List ContentEntry) (sections : List SectionSpec)
    (agent : Option FlowAgent) : List Block :=
  Block.heading "Technical Specification Document" 0 ::
    (buildSections content agent 0 sections ++
      [Block.para "\nDocument generated by PWC AI-powered ABAP Tech Spec Assistant."])

/-- Written from the specification text (claim C6), for comparison with
`find_all_table_like_chunks`: a table region starts at a non-blank
pipe-containing line whose immediately following line also contains a pipe, and
extends through the consecutive subsequent pipe-containing non-blank lines;
other non-blank lines are text chunks; blank lines produce no chunk. -/
def specChunksFuel : Nat → List String → List (ChunkTag × String)
  | 0, _ => []
  | _ + 1, [] => []
  | fuel + 1, l :: rest =>
    if containsPipe l && !(pyStrip l == "") && (rest.head?.any containsPipe) then
      (ChunkTag.table,
        pyStrip (joinNL (l :: rest.takeWhile (fun r => containsPipe r && !(pyStrip r == ""))))) ::
        specChunksFuel fuel (rest.dropWhile (fun r => containsPipe r && !(pyStrip r == "")))
    else if pyStrip l = "" then specChunksFuel fuel rest
    else (ChunkTag.text, pyStrip l) :: specChunksFuel fuel rest

/-- The specification-side chunker of claim C6. -/
def chunksSpec (text : String) : List (ChunkTag × String) :=
  specChunksFuel (pySplitlines text).length (pySplitlines text)

/-- Apply `f` to the last element of a list only (used to analyse `pyStrip` of a join). -/
def mapLast (f : String → String) : List String → List String
  | [] => []
  | [x] => [f x]
  | x :: y :: r => x :: mapLast f (y :: r)

/-- A line free of line terminators (as produced by `pySplitlines`). -/
def noNL (l : String) : Prop := ∀ c ∈ l.toList, ¬(c = '\n' ∨ c = '\r')

/-! ### Basic list and string lemmas -/

theorem len_dropWhile_le {α : Type} (p : α → Bool) (l : List α) :
    (l.dropWhile p).length ≤ l.length := by
  induction l with
  | nil => simp [List.dropWhile]
  | cons a l ih =>
    by_cases h : p a
    · rw [List.dropWhile_cons_of_pos h]; exact Nat.le_succ_of_le ih
    · rw [List.dropWhile_cons_of_neg h]

theorem toList_mk (cs : List Char) : (String.mk cs).toList = cs := rfl

theorem mk_toList (s : String) : String.mk s.toList = s := rfl

theorem mk_eq_empty_iff (cs : List Char) : String.mk cs = "" ↔ cs = [] := by
  constructor
  · intro h
    have h2 := congrArg String.toList h
    simpa [toList_mk] using h2
  · rintro rfl; rfl

theorem toList_append (a b : String) : (a ++ b).toList = a.toList ++ b.toList :=
  String.data_append a b

theorem splitOnCharAux_ne_nil (c : Char) (cs acc : List Char) :
    splitOnCharAux c cs acc ≠ [] := by
  induction cs generalizing acc with
  | nil => simp [splitOnCharAux]
  | cons x rest ih =>
    by_cases h : x = c
    · simp [splitOnCharAux, h]
    · simpa [splitOnCharAux, h] using ih (x :: acc)

theorem splitOnChar_ne_nil (c : Char) (s : String) : splitOnChar c s ≠ [] :=
  splitOnCharAux_ne_nil c s.toList []

theorem splitOnCharAux_of_not_mem (c : Char) (cs acc : List Char) (h : c ∉ cs) :
    splitOnCharAux c cs acc = [String.mk (acc.reverse ++ cs)] := by
  induction cs generalizing acc with
  | nil => simp [splitOnCharAux]
  | cons x rest ih =>
    have hx : ¬ x = c := by rintro rfl; exact h (List.mem_cons_self x rest)
    rw [splitOnCharAux, if_neg hx, ih (x :: acc) (fun hc => h (List.mem_cons_of_mem x hc))]
    simp

theorem splitOnChar_of_not_mem (c : Char) (s : String) (h : c ∉ s.toList) :
    splitOnChar c s = [s] := by
  rw [splitOnChar, splitOnCharAux_of_not_mem c s.toList [] h]
  simp [mk_toList]
theorem splitWs2_ne_nil_fuel :
    ∀ fuel : Nat, (∀ cs acc, splitWs2Main fuel cs acc ≠ []) ∧ (∀ cs, splitWs2Skip fuel cs ≠ []) := by
  intro fuel
  induction fuel with
  | zero =>
    refine ⟨fun cs acc => ?_, fun cs => ?_⟩
    · simp [splitWs2Main]
    · simp [splitWs2Skip]
  | succ n ih =>
    refine ⟨fun cs acc => ?_, fun cs => ?_⟩
    · rw [splitWs2Main.eq_def]
      split
      · simp
      · simp
      · simp
      · rename_i fuel x rest hcond heq
        obtain rfl : fuel = n := by omega
        exact ih.1 _ _
    · rw [splitWs2Skip.eq_def]
      split
      · simp
      · simp
      · rename_i fuel rest heq
        obtain rfl : fuel = n := by omega
        exact ih.2 _
      · rename_i fuel x rest hcond heq
        obtain rfl : fuel = n := by omega
        exact ih.1 _ _

theorem splitWs2_ne_nil (s : String) : splitWs2 s ≠ [] :=
  (splitWs2_ne_nil_fuel _).1 _ _

theorem all_decide_len {L : List (List String)} {n : Nat}
    (h : L.all (fun r => decide (r.length = n)) = true) : ∀ r ∈ L, r.length = n := by
  intro r hr
  simpa using List.all_eq_true.mp h r hr

theorem lenGuard_eq_some {cols c : List String} {rows r : List (List String)} :
    lenGuard cols rows = some (c, r) ↔
      c = cols ∧ r = rows ∧ ∀ x ∈ rows, x.length = cols.length := by
  constructor
  · intro h
    simp only [lenGuard] at h
    split at h
    · rename_i hall
      simp only [Option.some.injEq, Prod.mk.injEq] at h
      exact ⟨h.1.symm, h.2.symm, all_decide_len hall⟩
    · exact absurd h (by simp)
  · rintro ⟨rfl, rfl, hlen⟩
    have hall : (List.all r fun x => decide (x.length = c.length)) = true :=
      List.all_eq_true.mpr fun x hx => decide_eq_true (hlen x hx)
    simp [lenGuard, hall]

theorem lenGuard_none_of_bad {cols : List String} {rows : List (List String)} (x : List String)
    (hx : x ∈ rows) (hlen : x.length ≠ cols.length) : lenGuard cols rows = none := by
  simp only [lenGuard]
  rw [if_neg]
  intro hall
  exact hlen (all_decide_len hall x hx)

theorem lenGuard_self {cols : List String} {rows : List (List String)}
    (hlen : ∀ x ∈ rows, x.length = cols.length) : lenGuard cols rows = some (cols, rows) :=
  lenGuard_eq_some.mpr ⟨rfl, rfl, hlen⟩

theorem parse_markdown_table_ok {v : String} {cols : List String} {rows : List (List String)}
    (h : parse_markdown_table v = some (cols, rows)) :
    cols ≠ [] ∧ ∀ r ∈ rows, r.length = cols.length := by
  simp only [parse_markdown_table] at h
  split at h
  · split at h
    · obtain ⟨rfl, rfl, hlen⟩ := lenGuard_eq_some.mp h
      refine ⟨?_, hlen⟩
      intro hnil
      simp only [mdRow, List.map_eq_nil_iff] at hnil
      exact splitOnChar_ne_nil _ _ hnil
    · exact absurd h (by simp)
  · exact absurd h (by simp)

theorem parse_github_style_table_ok {v : String} {cols : List String} {rows : List (List String)}
    (h : parse_github_style_table v = some (cols, rows)) :
    cols ≠ [] ∧ ∀ r ∈ rows, r.length = cols.length := by
  simp only [parse_github_style_table] at h
  split at h
  · split at h
    · obtain ⟨rfl, rfl, hlen⟩ := lenGuard_eq_some.mp h
      refine ⟨?_, hlen⟩
      intro hnil
      simp only [List.map_eq_nil_iff] at hnil
      exact splitOnChar_ne_nil _ _ hnil
    · exact absurd h (by simp)
  · exact absurd h (by simp)

theorem parse_simple_pipe_table_ok {v : String} {cols : List String} {rows : List (List String)}
    (h : parse_simple_pipe_table v = some (cols, rows)) :
    cols ≠ [] ∧ ∀ r ∈ rows, r.length = cols.length := by
  simp only [parse_simple_pipe_table] at h
  split at h
  · obtain ⟨rfl, rfl, hlen⟩ := lenGuard_eq_some.mp h
    refine ⟨?_, hlen⟩
    intro hnil
    simp only [List.map_eq_nil_iff] at hnil
    exact splitOnChar_ne_nil _ _ hnil
  · exact absurd h (by simp)

theorem anyDelimTry_ok {ls : List String} {split : String → List String} {cols : List String}
    {rows : List (List String)} (hne : ∀ s, split s ≠ [])
    (h : anyDelimTry ls split = some (cols, rows)) :
    cols ≠ [] ∧ ∀ r ∈ rows, r.length = cols.length := by
  simp only [anyDelimTry] at h
  split at h
  · rename_i r0 rs hmap
    obtain ⟨rfl, rfl, hlen⟩ := lenGuard_eq_some.mp h
    refine ⟨?_, hlen⟩
    rcases ls with _ | ⟨x, xs⟩
    · simp at hmap
    · simp only [List.map_cons, List.cons.injEq] at hmap
      obtain ⟨rfl, -⟩ := hmap
      exact hne x
  · exact absurd h (by simp)

theorem parse_any_delim_table_ok {v : String} {cols : List String} {rows : List (List String)}
    (h : parse_any_delim_table v = some (cols, rows)) :
    cols ≠ [] ∧ ∀ r ∈ rows, r.length = cols.length := by
  simp only [parse_any_delim_table] at h
  split at h
  · split at h
    · rename_i htry
      cases h
      exact anyDelimTry_ok (fun s => splitOnChar_ne_nil '|' s) htry
    · split at h
      · rename_i htry
        cases h
        exact anyDelimTry_ok (fun s => splitOnChar_ne_nil '\t' s) htry
      · exact anyDelimTry_ok (fun s => splitWs2_ne_nil s) h
  · exact absurd h (by simp)

/-- C1: for `content = [{section_name: "Overview", content: "Hello\n\n| A | B |\n|---|---|\n| 1 | 2 |"}]`
and `sections = [{title: "Overview"}]` with no diagram agent, `build_document` produces, after the
top-level title heading, exactly the level-1 heading "1. Overview", the paragraph "Hello", the
table with columns ["A","B"] and single row ["1","2"], followed by the fixed trailing attribution
paragraph. -/
theorem C1_overview_example :
    build_document [⟨"Overview", "Hello\n\n| A | B |\n|---|---|\n| 1 | 2 |"⟩] [⟨"Overview"⟩] none =
      [Block.heading "Technical Specification Document" 0,
       Block.heading "1. Overview" 1,
       Block.para "Hello",
       Block.table ["A", "B"] [["1", "2"]],
       Block.para "\nDocument generated by PWC AI-powered ABAP Tech Spec Assistant."] := by
  decide

/-- C7: whenever any of the four table interpreters returns a non-none result, the column list is
non-empty and every data row has exactly as many cells as there are columns. -/
theorem C7_parsed_table_invariant :
    ∀ (v : String) (cols : List String) (rows : List (List String)),
      parse_markdown_table v = some (cols, rows) ∨
        parse_github_style_table v = some (cols, rows) ∨
          parse_simple_pipe_table v = some (cols, rows) ∨
            parse_any_delim_table v = some (cols, rows) →
      cols ≠ [] ∧ ∀ r ∈ rows, r.length = cols.length := by
  intro v cols rows h
  rcases h with h | h | h | h
  · exact parse_markdown_table_ok h
  · exact parse_github_style_table_ok h
  · exact parse_simple_pipe_table_ok h
  · exact parse_any_delim_table_ok h

/-- Witness for C7 at the concrete chunk `"| A |\n| B |"`. -/
theorem C7_witness :
    parse_markdown_table "| A |\n| B |" = some (["A"], [["B"]]) ∧
      (["A"] : List String) ≠ [] ∧
        ∀ r ∈ [["B"]], List.length r = (["A"] : List String).length :=
  ⟨by decide, C7_parsed_table_invariant "| A |\n| B |" ["A"] [["B"]] (Or.inl (by decide))⟩

/-- C4 counterexample: in the chunk `"| A |\nB"` the stripped line `"B"` lacks leading and
trailing bars, yet interpreter 1 still returns a table (only the first line's bars are checked). -/
theorem C4_counterexample :
    ("B" ∈ stripLines "| A |\nB" ∧ strStartsWith "B" "|" = false) ∧
      parse_markdown_table "| A |\nB" = some (["A"], [["B"]]) := by
  decide

/-- C4 amended: interpreter 1 requires only the FIRST stripped non-blank line to both start and
end with a bar; whenever that first line fails the bar test, it returns none. -/
theorem C4_amended :
    ∀ (v l0 : String) (rest : List String),
      stripLines v = l0 :: rest →
      ¬(strStartsWith l0 "|" = true ∧ strEndsWith l0 "|" = true) →
      parse_markdown_table v = none := by
  intro v l0 rest hL hbar
  have hb : (strStartsWith l0 "|" && strEndsWith l0 "|") = false := by
    cases h1 : strStartsWith l0 "|" <;> cases h2 : strEndsWith l0 "|" <;> simp_all
  cases rest with
  | nil => simp [parse_markdown_table, hL]
  | cons l1 r => simp [parse_markdown_table, hL, hb]

/-- Witness for C4's amended theorem at the concrete chunk `"A|\nB|C"`. -/
theorem C4_amended_witness :
    stripLines "A|\nB|C" = ["A|", "B|C"] ∧ parse_markdown_table "A|\nB|C" = none :=
  ⟨by decide, C4_amended "A|\nB|C" "A|" ["B|C"] (by decide) (by decide)⟩

/-- C5 counterexample: for the chunk `"A|B\n---\nC|D"` the second stripped line consists only of
dashes with no pipe, and `parse_github_style_table` returns none (the divider pattern requires at
least one pipe), contradicting the claim that a dashes-only divider is accepted. -/
theorem C5_counterexample :
    stripLines "A|B\n---\nC|D" = ["A|B", "---", "C|D"] ∧
      ("---").toList.all (fun c => decide (c = '-')) = true ∧
      parse_github_style_table "A|B\n---\nC|D" = none := by
  decide

/-- C5 amended: interpreter 2 succeeds exactly when the chunk has at least two stripped non-blank
lines, the second matches the divider pattern of dashes separated by at least one pipe
(a dashes-only line with no pipe is rejected), columns come from splitting line 1 on the pipe and
trimming, data rows from the pipe-containing later lines, and every data row's cell count equals
the column count. -/
theorem C5_amended :
    (∀ (v : String) (cols : List String) (rows : List (List String)),
        parse_github_style_table v = some (cols, rows) ↔
          ∃ l0 l1 rest, stripLines v = l0 :: l1 :: rest ∧ isGithubDivider l1 = true ∧
            cols = (splitOnChar '|' l0).map pyStrip ∧
            rows = (rest.filter (fun l => containsPipe l)).map
              (fun l => (splitOnChar '|' l).map pyStrip) ∧
            ∀ r ∈ rows, r.length = cols.length) ∧
      ∀ l : String, l.toList.all (fun c => decide (c = '-')) = true → isGithubDivider l = false := by
  constructor
  · intro v cols rows
    constructor
    · intro h
      simp only [parse_github_style_table] at h
      split at h
      · split at h
        · rename_i l0 l1 rest heq hdiv
          obtain ⟨rfl, rfl, hlen⟩ := lenGuard_eq_some.mp h
          exact ⟨l0, l1, rest, heq, hdiv, rfl, rfl, hlen⟩
        · exact absurd h (by simp)
      · exact absurd h (by simp)
    · rintro ⟨l0, l1, rest, hL, hdiv, rfl, rfl, hlen⟩
      simp only [parse_github_style_table, hL, hdiv, if_true]
      exact lenGuard_self hlen
  · intro l hl
    have hp : '|' ∉ l.toList := by
      intro hm
      have := List.all_eq_true.mp hl _ hm
      simp at this
    rw [isGithubDivider, splitOnChar_of_not_mem '|' l hp]

/-- Witness for C5's amended theorem: the dashes-only line is rejected, while a one-pipe divider
chunk parses. -/
theorem C5_amended_witness :
    isGithubDivider "---" = false ∧
      parse_github_style_table "A|B\n--|--\nC|D" = some (["A", "B"], [["C", "D"]]) :=
  ⟨C5_amended.2 "---" (by decide),
    (C5_amended.1 "A|B\n--|--\nC|D" ["A", "B"] [["C", "D"]]).mpr
      ⟨"A|B", "--|--", ["C|D"], by decide, by decide, by decide, by decide, by decide⟩⟩

/-- C10: `build_document`'s ladder treats an interpreter result with an empty data-row list as a
failure (Python falsiness of `rows`) and hands the chunk to the later interpreters; concretely, for
a header+divider-only chunk, interpreter 1's `(cols, [])` is not rendered and the simple-pipe
interpreter's (garbled) table is rendered instead. -/
theorem C10_empty_rows_fall_through :
    (∀ (v : String) (cols : List String),
        parse_markdown_table v = some (cols, []) → interpretTableChunk v = ladderTail v) ∧
      parse_markdown_table "| A | B |\n|---|---|" = some (["A", "B"], []) ∧
      renderTableChunk "| A | B |\n|---|---|" =
        Block.table ["", "A", "B", ""] [["", "---", "---", ""]] := by
  refine ⟨?_, by decide, by decide⟩
  intro v cols h
  simp [interpretTableChunk, h, tableOk]

/-- Witness for C10 at the header+divider-only chunk. -/
theorem C10_witness :
    parse_markdown_table "| A | B |\n|---|---|" = some (["A", "B"], []) ∧
      interpretTableChunk "| A | B |\n|---|---|" = ladderTail "| A | B |\n|---|---|" :=
  ⟨by decide, C10_empty_rows_fall_through.1 "| A | B |\n|---|---|" ["A", "B"] (by decide)⟩

/-- C2 counterexample: the chunk `"|A\tQ|B|\nx|y  z"` is a table chunk whose single data row
disagrees with the header under all three of the claimed splitting rules (pipe, tab, 2+-space),
yet interpreter 1 succeeds (it strips the enclosing bars first) and the chunk renders as a table,
not as a paragraph. -/
theorem C2_counterexample :
    find_all_table_like_chunks "|A\tQ|B|\nx|y  z" = [(ChunkTag.table, "|A\tQ|B|\nx|y  z")] ∧
      stripLines "|A\tQ|B|\nx|y  z" = ["|A\tQ|B|", "x|y  z"] ∧
      (splitOnChar '|' "x|y  z").length ≠ (splitOnChar '|' "|A\tQ|B|").length ∧
      (splitOnChar '\t' "x|y  z").length ≠ (splitOnChar '\t' "|A\tQ|B|").length ∧
      (splitWs2 "x|y  z").length ≠ (splitWs2 "|A\tQ|B|").length ∧
      renderTableChunk "|A\tQ|B|\nx|y  z" = Block.table ["A\tQ", "B"] [["x", "y  z"]] := by
  decide

/-- C2 amended: if every data row disagrees with the header under each interpreter's own
line-selection and splitting rule — pipe, tab and 2+-space splits of the stripped lines for
interpreter 4, the bar-stripped pipe split (divider removed) for interpreter 1, and the pipe split
of the selected non-divider pipe lines for interpreter 3 (interpreter 2's rows are covered by the
pipe rule) — then no interpreter yields a renderable table and the chunk renders as a paragraph
containing the raw chunk text, never as a table. -/
theorem C2_amended :
    ∀ (v hd : String) (t : List String),
      stripLines v = hd :: t → t ≠ [] →
      (∀ l ∈ t, (splitOnChar '|' l).length ≠ (splitOnChar '|' hd).length) →
      (∀ l ∈ t, (splitOnChar '\t' l).length ≠ (splitOnChar '\t' hd).length) →
      (∀ l ∈ t, (splitWs2 l).length ≠ (splitWs2 hd).length) →
      (∀ l ∈ mdDataLines v, (mdRow l).length ≠ (mdRow hd).length) →
      (∀ l ∈ (simplePipeLines v).tail,
        (splitOnChar '|' l).length ≠ (splitOnChar '|' ((simplePipeLines v).headI)).length) →
      interpretTableChunk v = none ∧ renderTableChunk v = Block.para v := by
  intro v hd t hL ht Hp Ht Hs Hmd Hsp
  obtain ⟨l1, t', rfl⟩ := List.exists_cons_of_ne_nil ht
  have hm : parse_markdown_table v = none ∨ parse_markdown_table v = some (mdRow hd, []) := by
    simp only [parse_markdown_table, hL]
    by_cases hbar : (strStartsWith hd "|" && strEndsWith hd "|") = true
    · rw [if_pos hbar]
      by_cases hdiv : mdDivider l1 = true
      · rw [if_pos hdiv]
        rcases ht' : t' with _ | ⟨x, t''⟩
        · right
          simp [lenGuard]
        · left
          refine lenGuard_none_of_bad (mdRow x) (List.mem_map_of_mem _ (List.mem_cons_self _ _)) ?_
          have hx : x ∈ mdDataLines v := by
            simp only [mdDataLines, hL, if_pos hdiv, ht']
            exact List.mem_cons_self _ _
          exact Hmd x hx
      · rw [if_neg hdiv]
        left
        refine lenGuard_none_of_bad (mdRow l1) (List.mem_map_of_mem _ (List.mem_cons_self _ _)) ?_
        have hx : l1 ∈ mdDataLines v := by
          simp only [mdDataLines, hL, if_neg hdiv]
          exact List.mem_cons_self _ _
        exact Hmd l1 hx
    · rw [if_neg hbar]
      left
      rfl
  have hg : parse_github_style_table v = none ∨
      parse_github_style_table v = some ((splitOnChar '|' hd).map pyStrip, []) := by
    simp only [parse_github_style_table, hL]
    by_cases hdiv : isGithubDivider l1 = true
    · rw [if_pos hdiv]
      rcases e : t'.filter (fun l => containsPipe l) with _ | ⟨x, xs⟩
      · right
        simp [lenGuard]
      · left
        have hx : x ∈ t'.filter (fun l => containsPipe l) := by
          rw [e]; exact List.mem_cons_self _ _
        have hxt : x ∈ t' := (List.mem_filter.mp hx).1
        refine lenGuard_none_of_bad ((splitOnChar '|' x).map pyStrip)
          (List.mem_map_of_mem _ (List.mem_cons_self _ _)) ?_
        simp only [List.length_map]
        exact Hp x (List.mem_cons_of_mem _ hxt)
    · rw [if_neg hdiv]
      left
      rfl
  have hs : parse_simple_pipe_table v = none := by
    simp only [parse_simple_pipe_table]
    split
    · rename_i p0 p1 ps hP
      refine lenGuard_none_of_bad ((splitOnChar '|' p1).map pyStrip)
        (List.mem_map_of_mem _ (List.mem_cons_self _ _)) ?_
      simp only [List.length_map]
      have h1 : p1 ∈ (simplePipeLines v).tail := by
        rw [hP]; exact List.mem_cons_self _ _
      have h0 : (simplePipeLines v).headI = p0 := by rw [hP]; rfl
      have := Hsp p1 h1
      rw [h0] at this
      simpa using this
    · rfl
  have ha : parse_any_delim_table v = none := by
    have h1 : anyDelimTry (hd :: l1 :: t') (splitOnChar '|') = none := by
      simp only [anyDelimTry, List.map_cons]
      exact lenGuard_none_of_bad (splitOnChar '|' l1)
        (List.mem_cons_self _ _) (Hp l1 (List.mem_cons_self _ _))
    have h2 : anyDelimTry (hd :: l1 :: t') (splitOnChar '\t') = none := by
      simp only [anyDelimTry, List.map_cons]
      exact lenGuard_none_of_bad (splitOnChar '\t' l1)
        (List.mem_cons_self _ _) (Ht l1 (List.mem_cons_self _ _))
    have h3 : anyDelimTry (hd :: l1 :: t') splitWs2 = none := by
      simp only [anyDelimTry, List.map_cons]
      exact lenGuard_none_of_bad (splitWs2 l1)
        (List.mem_cons_self _ _) (Hs l1 (List.mem_cons_self _ _))
    simp only [parse_any_delim_table, hL, h1, h2, h3]
  have hint : interpretTableChunk v = none := by
    have hlt : ladderTail v = none := by
      rcases hg with h | h <;> simp [ladderTail, h, hs, ha, tableOk]
    rcases hm with h | h <;> simp [interpretTableChunk, h, hlt, tableOk]
  exact ⟨hint, by simp [renderTableChunk, hint]⟩

/-- Witness for C2's amended theorem at the concrete chunk `"a|b\nc|d|e\tf  g"`. -/
theorem C2_amended_witness :
    interpretTableChunk "a|b\nc|d|e\tf  g" = none ∧
      renderTableChunk "a|b\nc|d|e\tf  g" = Block.para "a|b\nc|d|e\tf  g" :=
  C2_amended "a|b\nc|d|e\tf  g" "a|b" ["c|d|e\tf  g"] (by decide) (by decide) (by decide)
    (by decide) (by decide) (by decide) (by decide)

/-- C9: for a section whose trimmed lowercased title is "flow diagram", if the configured diagram
agent raises on every call, `build_document` emits the heading and the placeholder paragraph
"[Flow diagram not available]" and nothing else for that section (no chunking or table
interpretation), the exception never propagates, and the remaining sections are still processed. -/
theorem C9_flow_diagram_agent_failure :
    ∀ (a : FlowAgent) (content : List ContentEntry) (i : Nat) (sec : SectionSpec)
      (rest : List SectionSpec),
      (∀ s, ∃ msg, a s = Except.error msg) →
      strToLower (pyStrip sec.title) = "flow diagram" →
      buildSections content (some a) i (sec :: rest) =
        Block.heading (sectionHeader i sec.title) 1 ::
          Block.para "[Flow diagram not available]" ::
            buildSections content (some a) (i + 1) rest := by
  intro a content i sec rest ha htitle
  have hrun : ∀ oc, runDiagram (some a) oc = none := by
    intro oc
    rcases oc with _ | sc
    · rfl
    · simp only [runDiagram]
      by_cases h1 : sc ≠ ""
      · rw [if_pos h1]
        by_cases h2 : extract_arrow_flow sc ≠ ""
        · rw [if_pos h2]
          obtain ⟨msg, hmsg⟩ := ha (extract_arrow_flow sc)
          rw [hmsg]
        · rw [if_neg h2]
      · rw [if_neg h1]
  simp [buildSections, buildSection, htitle, hrun]

/-- Witness for C9: an agent that always raises, a flow-diagram section, and one further section
that is still rendered. -/
theorem C9_witness :
    buildSections [⟨"Flow Diagram", "A -> B"⟩]
        (some (fun _ => Except.error "boom")) 0 [⟨"Flow Diagram"⟩, ⟨"Overview"⟩] =
      [Block.heading "1. Flow Diagram" 1, Block.para "[Flow diagram not available]",
       Block.heading "2. Overview" 1] := by
  rw [C9_flow_diagram_agent_failure (fun _ => Except.error "boom") [⟨"Flow Diagram", "A -> B"⟩] 0
      ⟨"Flow Diagram"⟩ [⟨"Overview"⟩] (fun s => ⟨"boom", rfl⟩) (by decide)]
  decide

/-! ### Chunker equations and the C6 refinement -/

theorem chunksFuel_nil : ∀ n : Nat, chunksFuel n [] = [] := by
  intro n
  cases n <;> rfl

theorem chunksFuel_congr :
    ∀ (m n : Nat) (ls : List String), ls.length ≤ m → ls.length ≤ n →
      chunksFuel m ls = chunksFuel n ls := by
  intro m
  induction m with
  | zero =>
    intro n ls hm hn
    obtain rfl : ls = [] := List.length_eq_zero.mp (Nat.le_zero.mp hm)
    rw [chunksFuel_nil, chunksFuel_nil]
  | succ m ih =>
    intro n ls hm hn
    cases ls with
    | nil => rw [chunksFuel_nil, chunksFuel_nil]
    | cons l rest =>
      cases n with
      | zero => simp at hn
      | succ n' =>
        simp only [chunksFuel]
        have hm' : rest.length ≤ m := by simpa using hm
        have hn' : rest.length ≤ n' := by simpa using hn
        by_cases hst : startTable l rest = true
        · rw [if_pos hst, if_pos hst,
            ih n' _ (le_trans (len_dropWhile_le _ _) hm') (le_trans (len_dropWhile_le _ _) hn')]
        · rw [if_neg hst, if_neg hst, ih n' rest hm' hn']

theorem chunksOfLines_nil : chunksOfLines [] = [] := rfl

theorem chunksOfLines_cons (l : String) (rest : List String) :
    chunksOfLines (l :: rest) =
      if startTable l rest then
        flushChunk ChunkTag.table (l :: rest.takeWhile isTableLine) ++
          chunksOfLines (rest.dropWhile isTableLine)
      else
        (if pyStrip l = "" then [] else [(ChunkTag.text, pyStrip l)]) ++ chunksOfLines rest := by
  simp only [chunksOfLines, List.length_cons, chunksFuel]
  by_cases hst : startTable l rest = true
  · rw [if_pos hst, if_pos hst,
      chunksFuel_congr rest.length (rest.dropWhile isTableLine).length _
        (len_dropWhile_le _ _) le_rfl]
  · rw [if_neg hst, if_neg hst]

theorem stripWithPred_eq_empty_iff (p : Char → Bool) (s : String) :
    stripWithPred p s = "" ↔ s.toList.all p = true := by
  rw [stripWithPred, mk_eq_empty_iff, stripL, rstripL, lstripL]
  constructor
  · intro h
    rw [List.reverse_eq_nil_iff, List.dropWhile_eq_nil_iff] at h
    rw [List.all_eq_true]
    intro x hx
    have hsplit : s.toList.takeWhile p ++ s.toList.dropWhile p = s.toList :=
      List.takeWhile_append_dropWhile p s.toList
    rw [← hsplit] at hx
    rcases List.mem_append.mp hx with hx | hx
    · exact List.mem_takeWhile_imp hx
    · exact h x (List.mem_reverse.mpr hx)
  · intro h
    have hdw : s.toList.dropWhile p = [] :=
      List.dropWhile_eq_nil_iff.mpr (fun x hx => List.all_eq_true.mp h x hx)
    rw [hdw]
    rfl

theorem pyStrip_eq_empty_iff (s : String) :
    pyStrip s = "" ↔ ∀ c ∈ s.toList, isPyWs c = true := by
  rw [pyStrip, stripWithPred_eq_empty_iff, List.all_eq_true]

theorem mem_of_containsChar {c : Char} {s : String} (h : containsChar c s = true) :
    c ∈ s.toList := by
  obtain ⟨x, hx, hd⟩ := List.any_eq_true.mp h
  rw [decide_eq_true_eq] at hd
  exact hd ▸ hx

theorem containsChar_of_mem {c : Char} {s : String} (h : c ∈ s.toList) :
    containsChar c s = true :=
  List.any_eq_true.mpr ⟨c, h, by simp⟩

theorem mem_joinNL_head {l : String} {X : List String} {c : Char} (hc : c ∈ l.toList) :
    c ∈ (joinNL (l :: X)).toList := by
  cases X with
  | nil => simpa [joinNL] using hc
  | cons y ys =>
    simp only [joinNL, toList_append, List.mem_append]
    exact Or.inl (Or.inl hc)

theorem table_chunk_nonempty {l : String} (hp : containsPipe l = true) (X : List String) :
    pyStrip (joinNL (l :: X)) ≠ "" := by
  intro h
  have hm : '|' ∈ (joinNL (l :: X)).toList := mem_joinNL_head (mem_of_containsChar hp)
  have := (pyStrip_eq_empty_iff _).mp h '|' hm
  exact absurd this (by decide)

theorem containsPipe_false_of_blank {l : String} (h : pyStrip l = "") :
    containsPipe l = false := by
  rcases Bool.eq_false_or_eq_true (containsPipe l) with hb | hb
  · have := (pyStrip_eq_empty_iff _).mp h '|' (mem_of_containsChar hb)
    exact absurd this (by decide)
  · exact hb

theorem chunksFuel_eq_spec : ∀ (n : Nat) (ls : List String), chunksFuel n ls = specChunksFuel n ls := by
  intro n
  induction n with
  | zero => intro ls; rfl
  | succ n ih =>
    intro ls
    cases ls with
    | nil => rfl
    | cons l rest =>
      have hcond : (containsPipe l && !(pyStrip l == "") && rest.head?.any containsPipe) =
          startTable l rest := by
        cases rest <;> rfl
      simp only [chunksFuel, specChunksFuel, hcond]
      by_cases hst : startTable l rest = true
      · rw [if_pos hst, if_pos hst]
        have hp : containsPipe l = true := by
          simp only [startTable, Bool.and_eq_true] at hst
          exact hst.1.1
        have hTL : (fun r => containsPipe r && !(pyStrip r == "")) = isTableLine := rfl
        rw [hTL, flushChunk, if_neg (table_chunk_nonempty hp _), ih]
        rfl
      · rw [if_neg hst, if_neg hst]
        by_cases hb : pyStrip l = ""
        · rw [if_pos hb, if_pos hb, ih]
          rfl
        · rw [if_neg hb, if_neg hb, ih]
          rfl

theorem spec_blank_nil : ∀ (n : Nat) (ls : List String),
    (∀ l ∈ ls, pyStrip l = "") → specChunksFuel n ls = [] := by
  intro n
  induction n with
  | zero => intro ls h; rfl
  | succ n ih =>
    intro ls h
    cases ls with
    | nil => rfl
    | cons l rest =>
      have hb : pyStrip l = "" := h l (List.mem_cons_self _ _)
      have hp : containsPipe l = false := containsPipe_false_of_blank hb
      simp only [specChunksFuel, hp, Bool.false_and, Bool.and_eq_true]
      rw [if_neg (by simp), if_pos hb]
      exact ih rest (fun x hx => h x (List.mem_cons_of_mem _ hx))

theorem aux_nil_eq (acc : List Char) :
    pySplitlinesAux [] acc = if acc.isEmpty then [] else [String.mk acc.reverse] := rfl

theorem aux_lf (cs acc : List Char) :
    pySplitlinesAux ('\n' :: cs) acc = String.mk acc.reverse :: pySplitlinesAux cs [] := rfl

theorem aux_crlf (cs acc : List Char) :
    pySplitlinesAux ('\r' :: '\n' :: cs) acc = String.mk acc.reverse :: pySplitlinesAux cs [] := rfl

theorem aux_cr_nil (acc : List Char) :
    pySplitlinesAux ['\r'] acc = String.mk acc.reverse :: pySplitlinesAux [] [] := rfl

theorem aux_cr (c2 : Char) (cs acc : List Char) (h : ¬ c2 = '\n') :
    pySplitlinesAux ('\r' :: c2 :: cs) acc =
      String.mk acc.reverse :: pySplitlinesAux (c2 :: cs) [] := by
  rw [pySplitlinesAux.eq_def]
  split <;> try simp_all
  rename_i hne1 hne2 heq
  exact absurd heq.1.symm hne2

theorem aux_other (c : Char) (cs acc : List Char) (h1 : ¬ c = '\n') (h2 : ¬ c = '\r') :
    pySplitlinesAux (c :: cs) acc = pySplitlinesAux cs (c :: acc) := by
  rw [pySplitlinesAux.eq_def]
  split <;> simp_all

theorem pySplitlinesAux_infix_fuel :
    ∀ (n : Nat) (cs acc : List Char) (l : String), cs.length ≤ n →
      l ∈ pySplitlinesAux cs acc → l.toList <:+: (acc.reverse ++ cs) := by
  intro n
  induction n with
  | zero =>
    intro cs acc l hn hl
    obtain rfl : cs = [] := List.length_eq_zero.mp (Nat.le_zero.mp hn)
    rw [aux_nil_eq] at hl
    split at hl
    · simp at hl
    · rw [List.mem_singleton] at hl
      subst hl
      rw [toList_mk, List.append_nil]
  | succ n ih =>
    intro cs acc l hn hl
    rcases cs with _ | ⟨c, cs'⟩
    · rw [aux_nil_eq] at hl
      split at hl
      · simp at hl
      · rw [List.mem_singleton] at hl
        subst hl
        rw [toList_mk, List.append_nil]
    · by_cases h1 : c = '\n'
      · subst h1
        rw [aux_lf] at hl
        rcases List.mem_cons.mp hl with rfl | hl
        · rw [toList_mk]
          exact (List.prefix_append acc.reverse _).isInfix
        · have hrec := ih cs' [] l (by simpa using hn) hl
          simp only [List.reverse_nil, List.nil_append] at hrec
          refine hrec.trans ⟨acc.reverse ++ ['\n'], [], ?_⟩
          simp
      · by_cases h2 : c = '\r'
        · subst h2
          rcases cs' with _ | ⟨c2, cs''⟩
          · rw [aux_cr_nil] at hl
            rcases List.mem_cons.mp hl with rfl | hl
            · rw [toList_mk]
              exact (List.prefix_append acc.reverse _).isInfix
            · simp [pySplitlinesAux] at hl
          · by_cases h3 : c2 = '\n'
            · subst h3
              rw [aux_crlf] at hl
              rcases List.mem_cons.mp hl with rfl | hl
              · rw [toList_mk]
                exact (List.prefix_append acc.reverse _).isInfix
              · have hrec := ih cs'' [] l (by simp at hn; omega) hl
                simp only [List.reverse_nil, List.nil_append] at hrec
                refine hrec.trans ⟨acc.reverse ++ ['\r', '\n'], [], ?_⟩
                simp
            · rw [aux_cr c2 cs'' acc h3] at hl
              rcases List.mem_cons.mp hl with rfl | hl
              · rw [toList_mk]
                exact (List.prefix_append acc.reverse _).isInfix
              · have hrec := ih (c2 :: cs'') [] l (by simpa using hn) hl
                simp only [List.reverse_nil, List.nil_append] at hrec
                refine hrec.trans ⟨acc.reverse ++ ['\r'], [], ?_⟩
                simp
        · rw [aux_other c cs' acc h1 h2] at hl
          have hrec := ih cs' (c :: acc) l (by simpa using hn) hl
          simpa [List.append_assoc] using hrec

theorem pySplitlines_line_chars {text l : String} (hl : l ∈ pySplitlines text) :
    l.toList <:+: text.toList := by
  have := pySplitlinesAux_infix_fuel text.toList.length text.toList [] l le_rfl hl
  simpa using this

theorem mem_line_subset {text l : String} (hl : l ∈ pySplitlines text) :
    ∀ c ∈ l.toList, c ∈ text.toList :=
  fun _ hc => (pySplitlines_line_chars hl).sublist.subset hc

/-- C6: `find_all_table_like_chunks` agrees with the specification-side chunker: a table chunk is
emitted exactly for each region starting at a non-blank pipe-containing line whose immediately
following line also contains a pipe, extended through the consecutive subsequent pipe-containing
non-blank lines; a pipe-containing line not followed by a pipe line becomes a text chunk; blank
lines produce no chunk. -/
theorem C6_chunker_matches_spec : ∀ text : String,
    find_all_table_like_chunks text = chunksSpec text := by
  intro text
  by_cases h : pyStrip text = ""
  · rw [find_all_table_like_chunks, if_pos h, chunksSpec]
    refine (spec_blank_nil _ _ ?_).symm
    intro l hl
    rw [pyStrip_eq_empty_iff]
    intro c hc
    exact (pyStrip_eq_empty_iff text).mp h c (mem_line_subset hl c hc)
  · rw [find_all_table_like_chunks, if_neg h, chunksSpec, chunksOfLines, chunksFuel_eq_spec]

/-! ### Flow-extractor lemmas (C8) -/

theorem hasArrowL_iff : ∀ cs : List Char, hasArrowL cs = true ↔ ['-', '>'] <:+: cs := by
  intro cs
  induction cs with
  | nil =>
    simp [hasArrowL, List.infix_nil]
  | cons c rest ih =>
    rcases rest with _ | ⟨c2, rest'⟩
    · simp only [hasArrowL]
      constructor
      · intro h; simp at h
      · intro h
        have := h.length_le
        simp at this
    · show (if c = '-' && c2 = '>' then true else hasArrowL (c2 :: rest')) = true ↔ _
      by_cases hb : (c = '-' && c2 = '>') = true
      · rw [if_pos hb]
        simp only [Bool.and_eq_true, decide_eq_true_eq] at hb
        obtain ⟨rfl, rfl⟩ := hb
        simp only [true_iff]
        exact ⟨[], rest', rfl⟩
      · rw [if_neg hb, ih]
        constructor
        · intro h
          exact List.infix_cons_iff.mpr (Or.inr h)
        · intro h
          rcases List.infix_cons_iff.mp h with hpre | hinf
          · rw [List.cons_prefix_cons] at hpre
            obtain ⟨rfl, hpre2⟩ := hpre
            rw [List.cons_prefix_cons] at hpre2
            obtain ⟨rfl, -⟩ := hpre2
            simp at hb
          · exact hinf

theorem hasArrow_iff (s : String) : hasArrow s = true ↔ ['-', '>'] <:+: s.toList :=
  hasArrowL_iff s.toList

theorem isPrefixB_iff : ∀ ps cs : List Char, isPrefixB ps cs = true ↔ ps <+: cs := by
  intro ps
  induction ps with
  | nil => intro cs; simp [isPrefixB, List.nil_prefix]
  | cons p ps ih =>
    intro cs
    rcases cs with _ | ⟨c, cs'⟩
    · simp only [isPrefixB]
      constructor
      · intro h; simp at h
      · intro h
        have := h.length_le
        simp at this
    · simp only [isPrefixB, Bool.and_eq_true, decide_eq_true_eq, List.cons_prefix_cons, ih]

theorem strStartsWith_iff (s pre : String) :
    strStartsWith s pre = true ↔ pre.toList <+: s.toList :=
  isPrefixB_iff pre.toList s.toList

theorem prefix_of_suffix_within {P X cs : List Char} (hp : P <+: X) (hs : X <:+ cs) :
    P <:+: cs := by
  obtain ⟨r, hr⟩ := hp
  obtain ⟨t, ht⟩ := hs
  exact ⟨t, r, by rw [← ht, ← hr, List.append_assoc]⟩

theorem stripWithPred_sublist_chars (p : Char → Bool) (s : String) :
    (stripWithPred p s).toList <:+: s.toList := by
  rw [stripWithPred, toList_mk, stripL, rstripL, lstripL]
  refine prefix_of_suffix_within ?_ (List.dropWhile_suffix p)
  have h2 := List.reverse_prefix.mpr (List.dropWhile_suffix (l := (List.dropWhile p s.toList).reverse) p)
  simpa using h2

theorem cleanFlow_sublist_chars (l : String) : (cleanFlow l).toList <:+: l.toList :=
  (stripWithPred_sublist_chars _ _).trans (stripWithPred_sublist_chars _ _)

theorem pySplitlines_of_empty : pySplitlines "" = [] := rfl

/-- C8: `extract_arrow_flow` returns the first line that, after trimming surrounding backticks and
whitespace, contains "->" and does not start (case-insensitively) with "diagram", "flow", "legend"
or "#"; if no line qualifies but the whole text contains "->", it returns the entire trimmed text;
otherwise the empty string. In particular "Start -> Process -> End" yields that exact line,
"# Legend\nA -> B" yields "A -> B", and input with no "->" anywhere yields "". -/
theorem C8_extract_arrow_flow :
    extract_arrow_flow "Start -> Process -> End" = "Start -> Process -> End" ∧
    extract_arrow_flow "# Legend\nA -> B" = "A -> B" ∧
    (∀ l : String, flowQualifies l = true ↔
      (['-', '>'] <:+: (cleanFlow l).toList ∧
        ∀ p ∈ flowNoisePrefixes, ¬ p.toList <+: (strToLower (cleanFlow l)).toList)) ∧
    (∀ text : String, ¬ (['-', '>'] <:+: text.toList) → extract_arrow_flow text = "") ∧
    (∀ text l : String, (pySplitlines text).find? flowQualifies = some l →
      extract_arrow_flow text = cleanFlow l) ∧
    (∀ text : String, text ≠ "" → (pySplitlines text).find? flowQualifies = none →
      ['-', '>'] <:+: text.toList → extract_arrow_flow text = pyStrip text) := by
  refine ⟨by decide, by decide, ?_, ?_, ?_, ?_⟩
  · intro l
    constructor
    · intro hq
      have hq' : (hasArrow (cleanFlow l) &&
          !(flowNoisePrefixes.any fun p => strStartsWith (strToLower (cleanFlow l)) p)) = true := hq
      rw [Bool.and_eq_true] at hq'
      obtain ⟨h1, h2⟩ := hq'
      refine ⟨(hasArrow_iff _).mp h1, ?_⟩
      intro p hp hpre
      rw [Bool.not_eq_true'] at h2
      have hx := List.any_eq_true.mpr ⟨p, hp, (strStartsWith_iff _ _).mpr hpre⟩
      rw [h2] at hx
      exact absurd hx (by simp)
    · rintro ⟨h1, h2⟩
      show (hasArrow (cleanFlow l) &&
          !(flowNoisePrefixes.any fun p => strStartsWith (strToLower (cleanFlow l)) p)) = true
      rw [Bool.and_eq_true]
      refine ⟨(hasArrow_iff _).mpr h1, ?_⟩
      rw [Bool.not_eq_true']
      cases hx : (flowNoisePrefixes.any fun p => strStartsWith (strToLower (cleanFlow l)) p) with
      | false => rfl
      | true =>
        obtain ⟨p, hp, hps⟩ := List.any_eq_true.mp hx
        exact ((h2 p hp) ((strStartsWith_iff _ _).mp hps)).elim
  · intro text hinf
    by_cases ht : text = ""
    · rw [ht]; rfl
    · rw [extract_arrow_flow, if_neg ht]
      have hfind : (pySplitlines text).find? flowQualifies = none := by
        rw [List.find?_eq_none]
        intro l hl hq
        have hq' : (hasArrow (cleanFlow l) &&
            !(flowNoisePrefixes.any fun p => strStartsWith (strToLower (cleanFlow l)) p)) = true := hq
        rw [Bool.and_eq_true] at hq'
        have h1 := (hasArrow_iff _).mp hq'.1
        exact hinf (h1.trans ((cleanFlow_sublist_chars l).trans (pySplitlines_line_chars hl)))
      rw [hfind]
      have hA : ¬ hasArrow text = true := fun h => hinf ((hasArrow_iff _).mp h)
      show (if hasArrow text = true then pyStrip text else "") = ""
      rw [if_neg hA]
  · intro text l hfind
    by_cases ht : text = ""
    · rw [ht, pySplitlines_of_empty] at hfind
      simp at hfind
    · rw [extract_arrow_flow, if_neg ht, hfind]
  · intro text ht hfind hinf
    rw [extract_arrow_flow, if_neg ht, hfind]
    show (if hasArrow text = true then pyStrip text else "") = pyStrip text
    rw [if_pos ((hasArrow_iff _).mpr hinf)]

/-- Witness for C8: a no-arrow input yields the empty string, and a backticked arrow line is
returned trimmed. -/
theorem C8_witness :
    extract_arrow_flow "no arrows here" = "" ∧
      extract_arrow_flow "x y\nA -> B" = cleanFlow "A -> B" :=
  ⟨C8_extract_arrow_flow.2.2.2.1 "no arrows here" (by decide),
    C8_extract_arrow_flow.2.2.2.2.1 "x y\nA -> B" "A -> B" (by decide)⟩

/-! ### Strip and join structure lemmas (C3) -/

theorem dropWhile_append_left {α : Type} {p : α → Bool} {x y : List α}
    (h : ∃ a ∈ x, p a = false) :
    List.dropWhile p (x ++ y) = List.dropWhile p x ++ y := by
  induction x with
  | nil => simp at h
  | cons a x' ih =>
    by_cases hp : p a = true
    · rw [List.cons_append, List.dropWhile_cons_of_pos hp, List.dropWhile_cons_of_pos hp]
      refine ih ?_
      obtain ⟨b, hb, hbf⟩ := h
      rcases List.mem_cons.mp hb with rfl | hb'
      · rw [hp] at hbf; exact absurd hbf (by simp)
      · exact ⟨b, hb', hbf⟩
    · rw [List.cons_append, List.dropWhile_cons_of_neg hp, List.dropWhile_cons_of_neg hp,
        List.cons_append]

theorem dropWhile_all_prefix {α : Type} {p : α → Bool} {w z : List α}
    (h : ∀ a ∈ w, p a = true) :
    List.dropWhile p (w ++ z) = List.dropWhile p z := by
  induction w with
  | nil => simp
  | cons a w' ih =>
    rw [List.cons_append, List.dropWhile_cons_of_pos (h a (List.mem_cons_self _ _))]
    exact ih (fun b hb => h b (List.mem_cons_of_mem _ hb))

theorem dropWhile_head_not {α : Type} {p : α → Bool} {l : List α} {c : α} {t : List α}
    (h : List.dropWhile p l = c :: t) : p c = false := by
  induction l with
  | nil => simp at h
  | cons a l' ih =>
    by_cases hp : p a = true
    · rw [List.dropWhile_cons_of_pos hp] at h
      exact ih h
    · rw [List.dropWhile_cons_of_neg hp] at h
      injection h with h1 h2
      subst h1
      cases hpa : p a with
      | false => rfl
      | true => exact absurd hpa hp

theorem dropWhile_idem {α : Type} {p : α → Bool} {l : List α} :
    List.dropWhile p (List.dropWhile p l) = List.dropWhile p l := by
  cases e : List.dropWhile p l with
  | nil => simp
  | cons c t => rw [List.dropWhile_cons_of_neg (by simp [dropWhile_head_not e])]

theorem rstripL_append_ws {w X : List Char} (h : ∀ c ∈ w, isPyWs c = true) :
    rstripL isPyWs (X ++ w) = rstripL isPyWs X := by
  rw [rstripL, rstripL, List.reverse_append,
    dropWhile_all_prefix (fun c hc => h c (List.mem_reverse.mp hc))]

theorem rstripL_decomp (cs : List Char) :
    cs = rstripL isPyWs cs ++ (cs.reverse.takeWhile isPyWs).reverse ∧
      ∀ c ∈ (cs.reverse.takeWhile isPyWs).reverse, isPyWs c = true := by
  constructor
  · conv_lhs => rw [← List.reverse_reverse cs, ← List.takeWhile_append_dropWhile isPyWs cs.reverse]
    rw [List.reverse_append, rstripL]
  · intro c hc
    exact List.mem_takeWhile_imp (List.mem_reverse.mp hc)

theorem stripL_eq_nil_of_all {cs : List Char} (h : ∀ c ∈ cs, isPyWs c = true) :
    stripL isPyWs cs = [] := by
  rw [stripL, lstripL, List.dropWhile_eq_nil_iff.mpr h, rstripL]
  rfl

theorem stripL_idem (cs : List Char) :
    stripL isPyWs (stripL isPyWs cs) = stripL isPyWs cs := by
  by_cases hall : ∀ c ∈ cs, isPyWs c = true
  · rw [stripL_eq_nil_of_all hall]
    rfl
  · have hd : List.dropWhile isPyWs (stripL isPyWs cs) = stripL isPyWs cs := by
      cases e : stripL isPyWs cs with
      | nil => simp
      | cons c t =>
        have hpre : stripL isPyWs cs <+:
            List.dropWhile isPyWs cs := by
          rw [stripL]
          have h2 := List.reverse_prefix.mpr
            (List.dropWhile_suffix (l := (List.dropWhile isPyWs cs).reverse) isPyWs)
          simpa [rstripL] using h2
        obtain ⟨r, hr⟩ := hpre
        rw [e] at hr
        have hc : isPyWs c = false := dropWhile_head_not (l := cs) hr.symm
        rw [List.dropWhile_cons_of_neg (by simp [hc])]
    have hr : rstripL isPyWs (stripL isPyWs cs) = stripL isPyWs cs := by
      rw [stripL, rstripL, rstripL, List.reverse_reverse, dropWhile_idem]
    rw [stripL, lstripL, hd, hr]

theorem pyStrip_idem (s : String) : pyStrip (pyStrip s) = pyStrip s := by
  rw [pyStrip, pyStrip, stripWithPred, stripWithPred, toList_mk, stripL_idem]

theorem aux_split : ∀ (cs : List Char), (∀ c ∈ cs, ¬(c = '\n' ∨ c = '\r')) →
    ∀ (ds acc : List Char),
      pySplitlinesAux (cs ++ '\n' :: ds) acc =
        String.mk (acc.reverse ++ cs) :: pySplitlinesAux ds [] := by
  intro cs
  induction cs with
  | nil =>
    intro _ ds acc
    rw [List.nil_append, aux_lf, List.append_nil]
  | cons c cs' ih =>
    intro h ds acc
    obtain ⟨h1, h2⟩ := not_or.mp (h c (List.mem_cons_self _ _))
    rw [List.cons_append, aux_other c _ acc h1 h2,
      ih (fun x hx => h x (List.mem_cons_of_mem _ hx)) ds (c :: acc)]
    congr 1
    simp

theorem aux_noNL_single : ∀ (cs : List Char), (∀ c ∈ cs, ¬(c = '\n' ∨ c = '\r')) →
    ∀ acc : List Char,
      pySplitlinesAux cs acc =
        if (acc.reverse ++ cs).isEmpty then [] else [String.mk (acc.reverse ++ cs)] := by
  intro cs
  induction cs with
  | nil =>
    intro _ acc
    rw [aux_nil_eq, List.append_nil]
    cases acc <;> simp
  | cons c cs' ih =>
    intro h acc
    obtain ⟨h1, h2⟩ := not_or.mp (h c (List.mem_cons_self _ _))
    rw [aux_other c cs' acc h1 h2, ih (fun x hx => h x (List.mem_cons_of_mem _ hx)) (c :: acc)]
    have he : (acc.reverse ++ c :: cs').isEmpty = false := by
      cases acc <;> simp
    have he2 : ((c :: acc).reverse ++ cs').isEmpty = false := by simp
    rw [he, he2]
    simp

theorem toList_ne_nil {x : String} (h : x ≠ "") : x.toList ≠ [] := by
  intro he
  exact h (by rw [← mk_toList x, he])

theorem joinNL_cons_cons (x y : String) (r : List String) :
    joinNL (x :: y :: r) = x ++ "\n" ++ joinNL (y :: r) := rfl

theorem pySplitlines_joinNL : ∀ ls : List String, (∀ l ∈ ls, noNL l) →
    (∀ l ∈ ls, l ≠ "") → ls ≠ [] → pySplitlines (joinNL ls) = ls := by
  intro ls
  induction ls with
  | nil => intro _ _ h; exact absurd rfl h
  | cons x xs ih =>
    intro hN hE _
    rcases xs with _ | ⟨y, ys⟩
    · show pySplitlines (joinNL [x]) = [x]
      have hx : joinNL [x] = x := rfl
      rw [hx, pySplitlines,
        aux_noNL_single x.toList (hN x (List.mem_cons_self _ _)) []]
      have : x.toList.isEmpty = false := by
        cases e : x.toList with
        | nil => exact absurd e (toList_ne_nil (hE x (List.mem_cons_self _ _)))
        | cons a as => rfl
      simp only [List.reverse_nil, List.nil_append, this, mk_toList]
      simp only [Bool.false_eq_true, if_false]
    · rw [joinNL_cons_cons, pySplitlines]
      have hTL : (x ++ "\n" ++ joinNL (y :: ys)).toList =
          x.toList ++ '\n' :: (joinNL (y :: ys)).toList := by
        rw [toList_append, toList_append]
        simp
      rw [hTL, aux_split x.toList (hN x (List.mem_cons_self _ _)) _ []]
      rw [List.reverse_nil, List.nil_append, mk_toList]
      have hrec : pySplitlinesAux (joinNL (y :: ys)).toList [] = pySplitlines (joinNL (y :: ys)) := rfl
      rw [hrec, ih (fun l hl => hN l (List.mem_cons_of_mem _ hl))
        (fun l hl => hE l (List.mem_cons_of_mem _ hl)) (by simp)]

theorem mk_append (x y : List Char) : String.mk (x ++ y) = String.mk x ++ String.mk y := rfl

theorem lstripStr_append (a b : String) (h : ∃ c ∈ a.toList, isPyWs c = false) :
    lstripStr (a ++ b) = lstripStr a ++ b := by
  rw [lstripStr, lstripStr, toList_append, lstripL, lstripL, dropWhile_append_left h, mk_append,
    mk_toList]

theorem rstripStr_append (a b : String) (h : ∃ c ∈ b.toList, isPyWs c = false) :
    rstripStr (a ++ b) = a ++ rstripStr b := by
  have h' : ∃ c ∈ b.toList.reverse, isPyWs c = false := by
    obtain ⟨c, hc, hf⟩ := h
    exact ⟨c, List.mem_reverse.mpr hc, hf⟩
  rw [rstripStr, rstripStr, toList_append, rstripL, rstripL, List.reverse_append,
    dropWhile_append_left h', List.reverse_append, List.reverse_reverse, mk_append, mk_toList]

theorem pyStrip_eq_rstrip_lstrip (s : String) : pyStrip s = rstripStr (lstripStr s) := by
  rw [pyStrip, stripWithPred, stripL, rstripStr, lstripStr, toList_mk]
  rfl

theorem pyStrip_lstripStr (x : String) : pyStrip (lstripStr x) = pyStrip x := by
  rw [pyStrip, pyStrip, stripWithPred, stripWithPred, lstripStr, toList_mk, stripL, stripL,
    lstripL, lstripL, dropWhile_idem]

theorem pyStrip_rstripStr (x : String) : pyStrip (rstripStr x) = pyStrip x := by
  obtain ⟨hdec, hws⟩ := rstripL_decomp x.toList
  rw [pyStrip, pyStrip, stripWithPred, stripWithPred, rstripStr, toList_mk]
  by_cases hall : ∀ c ∈ rstripL isPyWs x.toList, isPyWs c = true
  · have hallx : ∀ c ∈ x.toList, isPyWs c = true := by
      intro c hc
      rw [hdec] at hc
      rcases List.mem_append.mp hc with hc' | hc'
      · exact hall c hc'
      · exact hws c hc'
    rw [stripL_eq_nil_of_all hall, stripL_eq_nil_of_all hallx]
  · have hex : ∃ c ∈ rstripL isPyWs x.toList, isPyWs c = false := by
      push_neg at hall
      obtain ⟨c, hc, hf⟩ := hall
      cases e : isPyWs c with
      | false => exact ⟨c, hc, e⟩
      | true => exact absurd e hf
    conv_rhs => rw [hdec]
    rw [stripL, stripL, lstripL, lstripL, dropWhile_append_left hex, rstripL_append_ws hws]

theorem lstripStr_subset (x : String) : ∀ c ∈ (lstripStr x).toList, c ∈ x.toList := by
  intro c hc
  rw [lstripStr, toList_mk, lstripL] at hc
  exact (List.dropWhile_suffix isPyWs).sublist.subset hc

theorem rstripStr_subset (x : String) : ∀ c ∈ (rstripStr x).toList, c ∈ x.toList := by
  intro c hc
  rw [rstripStr, toList_mk, rstripL, List.mem_reverse] at hc
  exact List.mem_reverse.mp ((List.dropWhile_suffix isPyWs).sublist.subset hc)

theorem noNL_lstripStr {x : String} (h : noNL x) : noNL (lstripStr x) :=
  fun c hc => h c (lstripStr_subset x c hc)

theorem noNL_rstripStr {x : String} (h : noNL x) : noNL (rstripStr x) :=
  fun c hc => h c (rstripStr_subset x c hc)

theorem exists_non_ws_of_strip_ne {x : String} (h : pyStrip x ≠ "") :
    ∃ c ∈ x.toList, isPyWs c = false := by
  by_contra hno
  push_neg at hno
  refine h ((pyStrip_eq_empty_iff x).mpr ?_)
  intro c hc
  cases e : isPyWs c with
  | true => rfl
  | false => exact absurd e (hno c hc)

theorem joinNL_has_char : ∀ (ls : List String) (y : String), y ∈ ls →
    ∀ c ∈ y.toList, c ∈ (joinNL ls).toList := by
  intro ls
  induction ls with
  | nil => intro y hy; simp at hy
  | cons x xs ih =>
    intro y hy c hc
    rcases List.mem_cons.mp hy with rfl | hy'
    · exact mem_joinNL_head hc
    · rcases xs with _ | ⟨z, zs⟩
      · simp at hy'
      · rw [joinNL_cons_cons, toList_append]
        exact List.mem_append.mpr (Or.inr (ih y hy' c hc))

theorem joinNL_cons_ne (x : String) (Y : List String) (h : Y ≠ []) :
    joinNL (x :: Y) = x ++ "\n" ++ joinNL Y := by
  obtain ⟨z, zs, rfl⟩ := List.exists_cons_of_ne_nil h
  rfl

theorem mapLast_ne_nil (f : String → String) (ls : List String) (h : ls ≠ []) :
    mapLast f ls ≠ [] := by
  obtain ⟨z, zs, rfl⟩ := List.exists_cons_of_ne_nil h
  cases zs <;> simp [mapLast]

theorem rstripStr_joinNL : ∀ ls : List String, (∀ l ∈ ls, pyStrip l ≠ "") → ls ≠ [] →
    rstripStr (joinNL ls) = joinNL (mapLast rstripStr ls) := by
  intro ls
  induction ls with
  | nil => intro _ h; exact absurd rfl h
  | cons x xs ih =>
    intro hnb _
    rcases xs with _ | ⟨y, ys⟩
    · show rstripStr (joinNL [x]) = joinNL [rstripStr x]
      rfl
    · have hex : ∃ c ∈ (joinNL (y :: ys)).toList, isPyWs c = false := by
        obtain ⟨c, hc, hf⟩ :=
          exists_non_ws_of_strip_ne (hnb y (List.mem_cons_of_mem _ (List.mem_cons_self _ _)))
        exact ⟨c, joinNL_has_char (y :: ys) y (List.mem_cons_self _ _) c hc, hf⟩
      rw [joinNL_cons_cons, rstripStr_append (x ++ "\n") (joinNL (y :: ys)) hex]
      rw [ih (fun l hl => hnb l (List.mem_cons_of_mem _ hl)) (by simp)]
      rw [show mapLast rstripStr (x :: y :: ys) = x :: mapLast rstripStr (y :: ys) from rfl]
      rw [joinNL_cons_ne x _ (mapLast_ne_nil rstripStr (y :: ys) (by simp))]

theorem pyStrip_joinNL_eq (l0 : String) (rest : List String) (hrest : rest ≠ [])
    (hnb : ∀ l ∈ l0 :: rest, pyStrip l ≠ "") :
    pyStrip (joinNL (l0 :: rest)) = joinNL (mapLast rstripStr (lstripStr l0 :: rest)) := by
  obtain ⟨r1, rest2, rfl⟩ := List.exists_cons_of_ne_nil hrest
  rw [pyStrip_eq_rstrip_lstrip, joinNL_cons_cons, String.append_assoc,
    lstripStr_append l0 _ (exists_non_ws_of_strip_ne (hnb l0 (List.mem_cons_self _ _))),
    ← String.append_assoc, ← joinNL_cons_cons]
  refine rstripStr_joinNL _ ?_ (by simp)
  intro l hl
  rcases List.mem_cons.mp hl with rfl | hl'
  · rw [pyStrip_lstripStr]
    exact hnb l0 (List.mem_cons_self _ _)
  · exact hnb l (List.mem_cons_of_mem _ hl')

theorem pySplitlinesAux_noNL_fuel :
    ∀ (n : Nat) (cs acc : List Char) (l : String), cs.length ≤ n →
      (∀ c ∈ acc, ¬(c = '\n' ∨ c = '\r')) → l ∈ pySplitlinesAux cs acc → noNL l := by
  intro n
  induction n with
  | zero =>
    intro cs acc l hn hacc hl
    obtain rfl : cs = [] := List.length_eq_zero.mp (Nat.le_zero.mp hn)
    rw [aux_nil_eq] at hl
    split at hl
    · simp at hl
    · rw [List.mem_singleton] at hl
      subst hl
      intro c hc
      exact hacc c (List.mem_reverse.mp (by simpa using hc))
  | succ n ih =>
    intro cs acc l hn hacc hl
    rcases cs with _ | ⟨c, cs'⟩
    · rw [aux_nil_eq] at hl
      split at hl
      · simp at hl
      · rw [List.mem_singleton] at hl
        subst hl
        intro c hc
        exact hacc c (List.mem_reverse.mp (by simpa using hc))
    · by_cases h1 : c = '\n'
      · subst h1
        rw [aux_lf] at hl
        rcases List.mem_cons.mp hl with rfl | hl
        · intro c hc
          exact hacc c (List.mem_reverse.mp (by simpa using hc))
        · exact ih cs' [] l (by simpa using hn) (by simp) hl
      · by_cases h2 : c = '\r'
        · subst h2
          rcases cs' with _ | ⟨c2, cs''⟩
          · rw [aux_cr_nil] at hl
            rcases List.mem_cons.mp hl with rfl | hl
            · intro c hc
              exact hacc c (List.mem_reverse.mp (by simpa using hc))
            · simp [pySplitlinesAux] at hl
          · by_cases h3 : c2 = '\n'
            · subst h3
              rw [aux_crlf] at hl
              rcases List.mem_cons.mp hl with rfl | hl
              · intro c hc
                exact hacc c (List.mem_reverse.mp (by simpa using hc))
              · exact ih cs'' [] l (by simp at hn; omega) (by simp) hl
            · rw [aux_cr c2 cs'' acc h3] at hl
              rcases List.mem_cons.mp hl with rfl | hl
              · intro c hc
                exact hacc c (List.mem_reverse.mp (by simpa using hc))
              · exact ih (c2 :: cs'') [] l (by simpa using hn) (by simp) hl
        · rw [aux_other c cs' acc h1 h2] at hl
          refine ih cs' (c :: acc) l (by simpa using hn) ?_ hl
          intro x hx
          rcases List.mem_cons.mp hx with rfl | hx'
          · exact not_or.mpr ⟨h1, h2⟩
          · exact hacc x hx'

theorem pySplitlines_noNL {text l : String} (hl : l ∈ pySplitlines text) : noNL l :=
  pySplitlinesAux_noNL_fuel text.toList.length text.toList [] l le_rfl (by simp) hl

theorem map_mapLast (f g : String → String) (h : ∀ x, g (f x) = g x) :
    ∀ ls : List String, (mapLast f ls).map g = ls.map g := by
  intro ls
  induction ls with
  | nil => rfl
  | cons x xs ih =>
    rcases xs with _ | ⟨y, ys⟩
    · simp [mapLast, h]
    · rw [show mapLast f (x :: y :: ys) = x :: mapLast f (y :: ys) from rfl,
        List.map_cons, List.map_cons, ih]

theorem forall_mapLast (P : String → Prop) (f : String → String) (hf : ∀ x, P x → P (f x)) :
    ∀ ls : List String, (∀ x ∈ ls, P x) → ∀ x ∈ mapLast f ls, P x := by
  intro ls
  induction ls with
  | nil => intro _ x hx; simp [mapLast] at hx
  | cons a xs ih =>
    intro hP x hx
    rcases xs with _ | ⟨y, ys⟩
    · rw [show mapLast f [a] = [f a] from rfl, List.mem_singleton] at hx
      subst hx
      exact hf a (hP a (List.mem_cons_self _ _))
    · rw [show mapLast f (a :: y :: ys) = a :: mapLast f (y :: ys) from rfl] at hx
      rcases List.mem_cons.mp hx with rfl | hx'
      · exact hP x (List.mem_cons_self _ _)
      · exact ih (fun z hz => hP z (List.mem_cons_of_mem _ hz)) x hx'

theorem strip_ne_of_isTableLine {l : String} (h : isTableLine l = true) : pyStrip l ≠ "" := by
  rw [isTableLine, Bool.and_eq_true] at h
  intro he
  rw [he] at h
  simp at h

theorem isTableLine_of_pipe {r : String} (h : containsPipe r = true) : isTableLine r = true := by
  rw [isTableLine, Bool.and_eq_true]
  refine ⟨h, ?_⟩
  have hne : pyStrip r ≠ "" := by
    intro he
    rw [containsPipe_false_of_blank he] at h
    simp at h
  simp [hne]

theorem stripLines_of_chunk (l0 : String) (rest2 : List String) (hrest : rest2 ≠ [])
    (ht : ∀ l ∈ l0 :: rest2, isTableLine l = true) (hN : ∀ l ∈ l0 :: rest2, noNL l) :
    stripLines (pyStrip (joinNL (l0 :: rest2))) = (l0 :: rest2).map pyStrip := by
  have hnb : ∀ l ∈ l0 :: rest2, pyStrip l ≠ "" := fun l hl => strip_ne_of_isTableLine (ht l hl)
  rw [stripLines, pyStrip_idem, pyStrip_joinNL_eq l0 rest2 hrest hnb]
  have hbase : ∀ x ∈ lstripStr l0 :: rest2, noNL x := by
    intro x hx
    rcases List.mem_cons.mp hx with rfl | hx'
    · exact noNL_lstripStr (hN l0 (List.mem_cons_self _ _))
    · exact hN x (List.mem_cons_of_mem _ hx')
  have hN' : ∀ x ∈ mapLast rstripStr (lstripStr l0 :: rest2), noNL x :=
    forall_mapLast noNL rstripStr (fun x hx => noNL_rstripStr hx) _ hbase
  have hnbbase : ∀ x ∈ lstripStr l0 :: rest2, pyStrip x ≠ "" := by
    intro x hx
    rcases List.mem_cons.mp hx with rfl | hx'
    · rw [pyStrip_lstripStr]
      exact hnb l0 (List.mem_cons_self _ _)
    · exact hnb x (List.mem_cons_of_mem _ hx')
  have hnb' : ∀ x ∈ mapLast rstripStr (lstripStr l0 :: rest2), pyStrip x ≠ "" :=
    forall_mapLast (fun x => pyStrip x ≠ "") rstripStr
      (fun x hx => by show pyStrip (rstripStr x) ≠ ""; rw [pyStrip_rstripStr]; exact hx) _ hnbbase
  have hE' : ∀ x ∈ mapLast rstripStr (lstripStr l0 :: rest2), x ≠ "" := by
    intro x hx he
    exact hnb' x hx (by rw [he]; rfl)
  rw [pySplitlines_joinNL _ hN' hE' (mapLast_ne_nil _ _ (by simp)),
    map_mapLast rstripStr pyStrip pyStrip_rstripStr, List.map_cons, pyStrip_lstripStr,
    ← List.map_cons]
  refine List.filter_eq_self.mpr ?_
  intro a ha
  obtain ⟨y, hy, rfl⟩ := List.mem_map.mp ha
  simp [hnb y hy]

theorem table_chunk_shape_fuel :
    ∀ (n : Nat) (ls : List String), ls.length ≤ n → (∀ l ∈ ls, noNL l) →
      ∀ v : String, (ChunkTag.table, v) ∈ chunksOfLines ls →
      ∃ l0 rest2, v = pyStrip (joinNL (l0 :: rest2)) ∧ rest2 ≠ [] ∧
        (∀ l ∈ l0 :: rest2, isTableLine l = true) ∧ (∀ l ∈ l0 :: rest2, noNL l) := by
  intro n
  induction n with
  | zero =>
    intro ls hn _ v hv
    obtain rfl : ls = [] := List.length_eq_zero.mp (Nat.le_zero.mp hn)
    simp [chunksOfLines_nil] at hv
  | succ n ih =>
    intro ls hn hN v hv
    rcases ls with _ | ⟨l, rest⟩
    · simp [chunksOfLines_nil] at hv
    · rw [chunksOfLines_cons] at hv
      by_cases hst : startTable l rest = true
      · rw [if_pos hst] at hv
        rcases List.mem_append.mp hv with hv1 | hv2
        · rw [flushChunk] at hv1
          split at hv1
          · simp at hv1
          · rw [List.mem_singleton, Prod.mk.injEq] at hv1
            obtain ⟨-, rfl⟩ := hv1
            rw [startTable, Bool.and_eq_true, Bool.and_eq_true] at hst
            obtain ⟨⟨hp, hb⟩, hnext⟩ := hst
            obtain ⟨r, rest', rfl⟩ : ∃ r rest', rest = r :: rest' := by
              rcases rest with _ | ⟨r, rest'⟩
              · simp [headHasPipe] at hnext
              · exact ⟨r, rest', rfl⟩
            have hpr : containsPipe r = true := hnext
            have htr : isTableLine r = true := isTableLine_of_pipe hpr
            refine ⟨l, (r :: rest').takeWhile isTableLine, rfl,
              by rw [List.takeWhile_cons_of_pos htr]; simp, ?_, ?_⟩
            · intro x hx
              rcases List.mem_cons.mp hx with rfl | hx'
              · rw [isTableLine, hp, hb]
                rfl
              · exact List.mem_takeWhile_imp hx'
            · intro x hx
              rcases List.mem_cons.mp hx with rfl | hx'
              · exact hN x (List.mem_cons_self _ _)
              · refine hN x (List.mem_cons_of_mem _ ?_)
                have : (r :: rest').takeWhile isTableLine <+: r :: rest' :=
                  List.takeWhile_prefix isTableLine
                exact this.sublist.subset hx'
        · refine ih (rest.dropWhile isTableLine)
            (le_trans (len_dropWhile_le _ _) (by simpa using hn))
            (fun x hx => hN x (List.mem_cons_of_mem _
              ((List.dropWhile_suffix isTableLine).sublist.subset hx))) v hv2
      · rw [if_neg hst] at hv
        rcases List.mem_append.mp hv with hv1 | hv2
        · split at hv1
          · simp at hv1
          · rw [List.mem_singleton, Prod.mk.injEq] at hv1
            obtain ⟨habs, -⟩ := hv1
            exact absurd habs (by simp)
        · exact ih rest (by simpa using hn)
            (fun x hx => hN x (List.mem_cons_of_mem _ hx)) v hv2

theorem stripLines_chars_subset (v : String) :
    ∀ x ∈ stripLines v, ∀ c ∈ x.toList, c ∈ v.toList := by
  intro x hx c hc
  rw [stripLines] at hx
  have hx1 := (List.mem_filter.mp hx).1
  obtain ⟨y, hy, rfl⟩ := List.mem_map.mp hx1
  have h1 : c ∈ y.toList := (stripWithPred_sublist_chars isPyWs y).sublist.subset hc
  have h2 : c ∈ (pyStrip v).toList := (pySplitlines_line_chars hy).sublist.subset h1
  exact (stripWithPred_sublist_chars isPyWs v).sublist.subset h2

theorem tableOk_some {c : List String} {r : List (List String)} (hc : c ≠ []) (hr : r ≠ []) :
    tableOk (some (c, r)) = true := by
  obtain ⟨c0, cs, rfl⟩ := List.exists_cons_of_ne_nil hc
  obtain ⟨r0, rs, rfl⟩ := List.exists_cons_of_ne_nil hr
  rfl

theorem tableOk_true_elim {o : Option (List String × List (List String))}
    (h : tableOk o = true) : ∃ c r, o = some (c, r) ∧ c ≠ [] ∧ r ≠ [] := by
  rcases o with _ | ⟨c, r⟩
  · simp [tableOk] at h
  · refine ⟨c, r, rfl, ?_, ?_⟩
    · intro he
      subst he
      simp [tableOk] at h
    · intro he
      subst he
      simp [tableOk] at h

theorem anyDelimTry_shape {hd : String} {tl : List String} {split : String → List String}
    {cols : List String} {rows : List (List String)}
    (h : anyDelimTry (hd :: tl) split = some (cols, rows)) :
    cols = split hd ∧ rows = tl.map split := by
  simp only [anyDelimTry, List.map_cons] at h
  obtain ⟨h1, h2, -⟩ := lenGuard_eq_some.mp h
  exact ⟨h1, h2⟩

theorem parse_any_delim_succeeds {v l0 l1 : String} {ls : List String}
    (hL : stripLines v = l0 :: l1 :: ls)
    (htab : ∀ x ∈ stripLines v, ∀ c ∈ x.toList, c ≠ '\t') :
    ∃ cols rows, parse_any_delim_table v = some (cols, rows) ∧ cols ≠ [] ∧ rows ≠ [] := by
  have hsplit : ∀ x ∈ l0 :: l1 :: ls, splitOnChar '\t' x = [x] := by
    intro x hx
    refine splitOnChar_of_not_mem '\t' x ?_
    intro hmem
    exact htab x (hL ▸ hx) '\t' hmem rfl
  rcases e1 : anyDelimTry (l0 :: l1 :: ls) (splitOnChar '|') with _ | t
  · have e2 : anyDelimTry (l0 :: l1 :: ls) (splitOnChar '\t') =
        some ([l0], [l1] :: ls.map (fun l => [l])) := by
      simp only [anyDelimTry, List.map_cons]
      rw [hsplit l0 (List.mem_cons_self _ _),
        hsplit l1 (List.mem_cons_of_mem _ (List.mem_cons_self _ _)),
        List.map_congr_left (fun x hx => hsplit x
          (List.mem_cons_of_mem _ (List.mem_cons_of_mem _ hx)))]
      refine lenGuard_self ?_
      intro r hr
      rcases List.mem_cons.mp hr with rfl | hr'
      · rfl
      · obtain ⟨y, -, rfl⟩ := List.mem_map.mp hr'
        rfl
    refine ⟨[l0], [l1] :: ls.map (fun l => [l]), ?_, by simp, by simp⟩
    simp only [parse_any_delim_table, hL, e1, e2]
  · obtain ⟨cols, rows⟩ := t
    obtain ⟨hc, hr⟩ := anyDelimTry_shape e1
    refine ⟨cols, rows, ?_, ?_, ?_⟩
    · simp only [parse_any_delim_table, hL, e1]
    · rw [hc]
      exact splitOnChar_ne_nil '|' l0
    · rw [hr, List.map_cons]
      simp

/-- C3: every chunk tagged 'table' by `find_all_table_like_chunks` none of whose characters is a
tab is rendered by the interpreter ladder as a table with a non-empty column list and at least one
data row — at worst `parse_any_delim_table`'s tab delimiter splits every stripped line into one
cell — so the prose fallback for table chunks is unreachable under this precondition. -/
theorem C3_table_chunk_always_renders :
    ∀ (text v : String), (ChunkTag.table, v) ∈ find_all_table_like_chunks text →
      (∀ c ∈ v.toList, c ≠ '\t') →
      ∃ cols rows, cols ≠ [] ∧ rows ≠ [] ∧ renderTableChunk v = Block.table cols rows := by
  intro text v hmem htab
  rw [find_all_table_like_chunks] at hmem
  split at hmem
  · simp at hmem
  · have hNL : ∀ l ∈ pySplitlines text, noNL l := fun l hl => pySplitlines_noNL hl
    obtain ⟨l0, rest2, rfl, hrne, hTL, hN⟩ :=
      table_chunk_shape_fuel (pySplitlines text).length (pySplitlines text) le_rfl hNL v hmem
    have hSL := stripLines_of_chunk l0 rest2 hrne hTL hN
    obtain ⟨r1, rs, rfl⟩ := List.exists_cons_of_ne_nil hrne
    rw [List.map_cons, List.map_cons] at hSL
    have htabL : ∀ x ∈ stripLines (pyStrip (joinNL (l0 :: r1 :: rs))),
        ∀ c ∈ x.toList, c ≠ '\t' :=
      fun x hx c hc => htab c (stripLines_chars_subset _ x hx c hc)
    set v := pyStrip (joinNL (l0 :: r1 :: rs)) with hv
    by_cases h1 : tableOk (parse_markdown_table v) = true
    · obtain ⟨c, r, he, hc, hr⟩ := tableOk_true_elim h1
      refine ⟨c, r, hc, hr, ?_⟩
      rw [renderTableChunk, interpretTableChunk]
      rw [if_pos h1, he]
    · by_cases h2 : tableOk (parse_github_style_table v) = true
      · obtain ⟨c, r, he, hc, hr⟩ := tableOk_true_elim h2
        refine ⟨c, r, hc, hr, ?_⟩
        rw [renderTableChunk, interpretTableChunk, if_neg h1, ladderTail, if_pos h2, he]
      · by_cases h3 : tableOk (parse_simple_pipe_table v) = true
        · obtain ⟨c, r, he, hc, hr⟩ := tableOk_true_elim h3
          refine ⟨c, r, hc, hr, ?_⟩
          rw [renderTableChunk, interpretTableChunk, if_neg h1, ladderTail, if_neg h2,
            if_pos h3, he]
        · obtain ⟨cols, rows, he4, hc, hr⟩ := parse_any_delim_succeeds hSL htabL
          have h4 : tableOk (parse_any_delim_table v) = true := by
            rw [he4]
            exact tableOk_some hc hr
          refine ⟨cols, rows, hc, hr, ?_⟩
          rw [renderTableChunk, interpretTableChunk, if_neg h1, ladderTail, if_neg h2,
            if_neg h3, if_pos h4, he4]

/-- Witness for C3 at the concrete text `"a|b\nc|d"`. -/
theorem C3_witness :
    (ChunkTag.table, "a|b\nc|d") ∈ find_all_table_like_chunks "a|b\nc|d" ∧
      ∃ cols rows, cols ≠ [] ∧ rows ≠ [] ∧
        renderTableChunk "a|b\nc|d" = Block.table cols rows :=
  ⟨by decide, C3_table_chunk_always_renders "a|b\nc|d" "a|b\nc|d" (by decide) (by decide)⟩
